import Mathlib

/-!
# Verification of the unified-diff engine of bach-codecommander-mcp

This development gives a shallow embedding of the LCS-based unified-diff
engine (`computeLCS`, `computeUnifiedDiff` and the backtracking / hunk
grouping code inside it) together with the `context_lines` input schema of
the `cc_diff_files` tool, and proves the specified properties about them.
-/

set_option autoImplicit false

namespace BachCC

/-- The tag of a change record: `'equal' | 'delete' | 'insert'` in the source. -/
inductive ChangeType where
  | equal
  | delete
  | insert
deriving DecidableEq, Repr

/-- A change record produced by the backtracking phase:
`{ type, lineA?, lineB?, text }`.  `lineA` is present on `equal` and
`delete` records, `lineB` on `equal` and `insert` records. -/
structure Change where
  type : ChangeType
  lineA : Option Nat
  lineB : Option Nat
  text : String
deriving DecidableEq, Repr

/-- The inner (`j`) loop of the table fill of `computeLCS`: row `i + 1`
of the table, given row `i` as the function `prev`.  `lcsRow a b i prev j`
is the entry `dp[i+1][j]`: `0` at `j = 0`, and for `j ≥ 1` the recurrence
`dp[i][j-1] + 1` when `a[i] === b[j-1]`, else
`max(dp[i][j], dp[i+1][j-1])`. -/
def lcsRow (a b : List String) (i : Nat) (prev : Nat → Nat) : Nat → Nat
  | 0 => 0
  | j + 1 =>
    if a.getD i "" = b.getD j "" then
      prev j + 1
    else
      max (prev (j + 1)) (lcsRow a b i prev j)

/-- The dynamic-programming table of `computeLCS(a, b)`: `computeLCS a b i j`
is the table entry `dp[i][j]`.  The source fills the `(m+1) × (n+1)` table in
row-major order with `dp[0][*] = dp[*][0] = 0` and, for `i, j ≥ 1`,
`dp[i][j] = dp[i-1][j-1] + 1` when `a[i-1] === b[j-1]`, otherwise
`max(dp[i-1][j], dp[i][j-1])`; row `0` is all zeroes here and each later
row is computed from its predecessor by `lcsRow`, exactly the source's
fill order. -/
def computeLCS (a b : List String) : Nat → Nat → Nat
  | 0, _ => 0
  | i + 1, j => lcsRow a b i (computeLCS a b i) j

/-- One backward step of the backtracking loop of `computeUnifiedDiff`,
starting from `i = linesA.length`, `j = linesB.length`:

* if `i > 0 && j > 0 && linesA[i-1] === linesB[j-1]`: push an `equal`
  record and decrement both indices;
* else if `j > 0 && (i === 0 || dp[i][j-1] >= dp[i-1][j])`: push an
  `insert` record and decrement `j`;
* else: push a `delete` record and decrement `i`.

The list returned here is in the push order (backwards); the source
reverses it into `changes`.  The recursion is organised by rows (`i`)
with `backtrackRow` handling the inner decrements of `j` and `insertAll`
the pure-insertion tail at `i = 0`, so every state `(i, j)` of the loop
is reachable and the emitted record at each state is exactly the
source's choice; see the equation lemmas right below. -/
def insertAll (b : List String) : Nat → List Change
  | 0 => []
  | j + 1 => ⟨.insert, none, some j, b.getD j ""⟩ :: insertAll b j

/-- The backtracking steps taken from a state `(i + 1, j)`, given the
continuation `prev` for states with first index `i`. -/
def backtrackRow (a b : List String) (i : Nat) (prev : Nat → List Change) :
    Nat → List Change
  | 0 => ⟨.delete, some i, none, a.getD i ""⟩ :: prev 0
  | j + 1 =>
    if a.getD i "" = b.getD j "" then
      ⟨.equal, some i, some j, a.getD i ""⟩ :: prev j
    else if computeLCS a b i (j + 1) ≤ computeLCS a b (i + 1) j then
      ⟨.insert, none, some j, b.getD j ""⟩ :: backtrackRow a b i prev j
    else
      ⟨.delete, some i, none, a.getD i ""⟩ :: prev (j + 1)

/-- The full backward walk of the backtracking loop from state `(i, j)`. -/
def backtrackAux (a b : List String) : Nat → Nat → List Change
  | 0, j => insertAll b j
  | i + 1, j => backtrackRow a b i (backtrackAux a b i) j

/-- Equation of `backtrackAux` at `(0, 0)`: the loop does not run. -/
theorem backtrackAux_zero_zero (a b : List String) : backtrackAux a b 0 0 = [] := rfl

/-- Equation of `backtrackAux` at `(0, j + 1)`: `i = 0`, so an `insert` is emitted and
`j` decremented. -/
theorem backtrackAux_zero_succ (a b : List String) (j : Nat) :
    backtrackAux a b 0 (j + 1) =
      ⟨.insert, none, some j, b.getD j ""⟩ :: backtrackAux a b 0 j := rfl

/-- Equation of `backtrackAux` at `(i + 1, 0)`: `j = 0`, so a `delete` is emitted and
`i` decremented. -/
theorem backtrackAux_succ_zero (a b : List String) (i : Nat) :
    backtrackAux a b (i + 1) 0 =
      ⟨.delete, some i, none, a.getD i ""⟩ :: backtrackAux a b i 0 := rfl

/-- Equation of `backtrackAux` at `(i + 1, j + 1)`: the three-way branch of the source's
loop body. -/
theorem backtrackAux_succ_succ (a b : List String) (i j : Nat) :
    backtrackAux a b (i + 1) (j + 1) =
      if a.getD i "" = b.getD j "" then
        ⟨.equal, some i, some j, a.getD i ""⟩ :: backtrackAux a b i j
      else if computeLCS a b i (j + 1) ≤ computeLCS a b (i + 1) j then
        ⟨.insert, none, some j, b.getD j ""⟩ :: backtrackAux a b (i + 1) j
      else
        ⟨.delete, some i, none, a.getD i ""⟩ :: backtrackAux a b i (j + 1) := rfl

/-- Induction along the branch structure of the backtracking loop. -/
theorem backtrack_induct (a b : List String) (motive : Nat → Nat → Prop)
    (case1 : motive 0 0)
    (case2 : ∀ j, motive 0 j → motive 0 (j + 1))
    (case3 : ∀ i, motive i 0 → motive (i + 1) 0)
    (case4 : ∀ i j, a.getD i "" = b.getD j "" → motive i j → motive (i + 1) (j + 1))
    (case5 : ∀ i j, ¬a.getD i "" = b.getD j "" →
      computeLCS a b i (j + 1) ≤ computeLCS a b (i + 1) j →
      motive (i + 1) j → motive (i + 1) (j + 1))
    (case6 : ∀ i j, ¬a.getD i "" = b.getD j "" →
      ¬computeLCS a b i (j + 1) ≤ computeLCS a b (i + 1) j →
      motive i (j + 1) → motive (i + 1) (j + 1))
    (i j : Nat) : motive i j := by
  have key : ∀ n i j, i + j ≤ n → motive i j := by
    intro n
    induction n with
    | zero =>
      intro i j h
      have hi : i = 0 := by omega
      have hj : j = 0 := by omega
      subst hi
      subst hj
      exact case1
    | succ n ih =>
      intro i j h
      cases i with
      | zero =>
        cases j with
        | zero => exact case1
        | succ j => exact case2 j (ih 0 j (by omega))
      | succ i =>
        cases j with
        | zero => exact case3 i (ih i 0 (by omega))
        | succ j =>
          by_cases heq : a.getD i "" = b.getD j ""
          · exact case4 i j heq (ih i j (by omega))
          · by_cases hle : computeLCS a b i (j + 1) ≤ computeLCS a b (i + 1) j
            · exact case5 i j heq hle (ih (i + 1) j (by omega))
            · exact case6 i j heq hle (ih i (j + 1) (by omega))
  exact key (i + j) i j (Nat.le_refl _)

/-- The ordered change list `changes` of `computeUnifiedDiff`:
the backtracked records, reversed into forward order. -/
def diffChanges (a b : List String) : List Change :=
  (backtrackAux a b a.length b.length).reverse

/-- Replaying the `equal` and `delete` records of a change list in order
(the A-side of the alignment). -/
def replayA (cs : List Change) : List String :=
  cs.filterMap fun c => if c.type = .insert then none else some c.text

/-- Replaying the `equal` and `insert` records of a change list in order
(the B-side of the alignment). -/
def replayB (cs : List Change) : List String :=
  cs.filterMap fun c => if c.type = .delete then none else some c.text

/-- Number of records of a given type in a change list. -/
def countType (t : ChangeType) (cs : List Change) : Nat :=
  (cs.filter fun c => c.type = t).length

/-- A hunk record `{ startA, countA, startB, countB, lines }`.  The start
fields are kept as integers because the source computes them by subtraction
before clamping at `0`. -/
structure DiffHunk where
  startA : Int
  countA : Nat
  startB : Int
  countB : Nat
  lines : List String
deriving DecidableEq, Repr

/-- The mutable state of the hunk-grouping loop of `computeUnifiedDiff`:
`hunks`, `hunkLines`, `hunkStartA`, `hunkStartB`, `hunkCountA`,
`hunkCountB`, `lastChangeIdx`. -/
structure GroupState where
  hunks : List DiffHunk
  hunkLines : List String
  hunkStartA : Int
  hunkStartB : Int
  hunkCountA : Nat
  hunkCountB : Nat
  lastChangeIdx : Int
deriving DecidableEq, Repr

/-- The initial grouping state: empty buffers and `lastChangeIdx = -999`. -/
def initGroupState : GroupState :=
  ⟨[], [], 0, 0, 0, 0, -999⟩

/-- The leading-context scan: starting at `k = idx - 1` and walking
backwards, collect `equal` records (stopping at the first record that is
not `equal`, the `else break` of the source) up to `cl` of them, un-shifted
so that the result is in forward order. -/
def leadingRun (changes : List Change) (idx cl : Nat) : List Change :=
  (((changes.take idx).reverse.takeWhile fun c => c.type = .equal).take cl).reverse

/-- The trailing-context scan used when a hunk is closed: starting at
index `start` and walking forward to the end of the change list, collect
`equal` records (records of other types are skipped, not a stopping
condition) until `cl` of them have been added. -/
def trailingRun (changes : List Change) (start cl : Nat) : List Change :=
  ((changes.drop start).filter fun c => c.type = .equal).take cl

/-- The gap-filling scan between two changes of one hunk: the records at
indices `start ≤ k < stop`, keeping the `equal` ones. -/
def gapRun (changes : List Change) (start stop : Nat) : List Change :=
  ((changes.drop start).take (stop - start)).filter fun c => c.type = .equal

/-- The source's `changes[idx - 1]?.lineA` (`none` when `idx = 0`). -/
def prevLineA (changes : List Change) (idx : Nat) : Option Nat :=
  if idx = 0 then none else (changes.get? (idx - 1)).bind fun c => c.lineA

/-- The source's `changes[idx - 1]?.lineB` (`none` when `idx = 0`). -/
def prevLineB (changes : List Change) (idx : Nat) : Option Nat :=
  if idx = 0 then none else (changes.get? (idx - 1)).bind fun c => c.lineB

/-- The A-side start position of a freshly opened hunk, before the leading
context is subtracted: `c.lineA` if present, else the previous record's
`lineA + 1` if present, else `0`. -/
def startBaseA (changes : List Change) (idx : Nat) (c : Change) : Int :=
  match c.lineA with
  | some v => (v : Int)
  | none =>
    match prevLineA changes idx with
    | some w => (w : Int) + 1
    | none => 0

/-- The B-side start position of a freshly opened hunk, before the leading
context is subtracted. -/
def startBaseB (changes : List Change) (idx : Nat) (c : Change) : Int :=
  match c.lineB with
  | some v => (v : Int)
  | none =>
    match prevLineB changes idx with
    | some w => (w : Int) + 1
    | none => 0

/-- Closing the currently open hunk: append up to `cl` trailing context
lines found from `lastChangeIdx + 1` onward, push the hunk, and reset the
line buffer and counters. -/
def closeHunk (changes : List Change) (cl : Nat) (s : GroupState) : GroupState :=
  let trail := trailingRun changes (s.lastChangeIdx + 1).toNat cl
  let h : DiffHunk :=
    ⟨s.hunkStartA, s.hunkCountA + trail.length, s.hunkStartB, s.hunkCountB + trail.length,
      s.hunkLines ++ trail.map fun ch : Change => " " ++ ch.text⟩
  { s with hunks := s.hunks ++ [h], hunkLines := [], hunkCountA := 0, hunkCountB := 0 }

/-- The first decision of the loop body on a change record: keep the state
on the very first change (leading-context handled when opening), close the
open hunk when the gap since the last change exceeds
`contextLines * 2 + 1` (in indices), otherwise continue the open hunk. -/
def groupClose (changes : List Change) (cl : Nat) (s : GroupState) (idx : Nat) : GroupState :=
  if (idx : Int) - s.lastChangeIdx > 2 * cl + 1 ∧ s.hunks = [] ∧ s.hunkLines = [] ∧
      s.lastChangeIdx < 0 then
    s
  else if (idx : Int) - s.lastChangeIdx > 2 * cl + 1 ∧ s.hunkLines ≠ [] then
    closeHunk changes cl s
  else s

/-- The second part of the loop body: with an empty line buffer open a new
hunk (leading context, clamped start positions), otherwise fill the gap
since the last change with context lines. -/
def groupContext (changes : List Change) (cl : Nat) (idx : Nat) (c : Change)
    (s1 : GroupState) : GroupState :=
  if s1.hunkLines = [] then
    let lead := leadingRun changes idx cl
    let cc := lead.length
    let sa := startBaseA changes idx c - cc
    let sb := startBaseB changes idx c - cc
    { s1 with
      hunkLines := lead.map fun ch : Change => " " ++ ch.text,
      hunkStartA := if sa < 0 then 0 else sa,
      hunkStartB := if sb < 0 then 0 else sb,
      hunkCountA := cc,
      hunkCountB := cc }
  else
    let gap := gapRun changes (s1.lastChangeIdx + 1).toNat idx
    { s1 with
      hunkLines := s1.hunkLines ++ gap.map fun ch : Change => " " ++ ch.text,
      hunkCountA := s1.hunkCountA + gap.length,
      hunkCountB := s1.hunkCountB + gap.length }

/-- The last part of the loop body: append the `-`/`+` line of the change
itself, bump the corresponding counter, and record `lastChangeIdx`. -/
def groupEmit (idx : Nat) (c : Change) (s2 : GroupState) : GroupState :=
  let s3 :=
    if c.type = .delete then
      { s2 with hunkLines := s2.hunkLines ++ ["-" ++ c.text],
                hunkCountA := s2.hunkCountA + 1 }
    else
      { s2 with hunkLines := s2.hunkLines ++ ["+" ++ c.text],
                hunkCountB := s2.hunkCountB + 1 }
  { s3 with lastChangeIdx := (idx : Int) }

/-- One iteration of the hunk-grouping loop at index `idx`.  `equal`
records leave the state untouched; a change record runs the three parts
of the source's loop body in order. -/
def groupStep (changes : List Change) (cl : Nat) (s : GroupState) (idx : Nat) : GroupState :=
  match changes.get? idx with
  | none => s
  | some c =>
    if c.type = .equal then s
    else groupEmit idx c (groupContext changes cl idx c (groupClose changes cl s idx))

/-- The full grouping loop: fold `groupStep` over all change-list indices. -/
def groupLoop (changes : List Change) (cl : Nat) : GroupState :=
  (List.range changes.length).foldl (groupStep changes cl) initGroupState

/-- The hunk list of `computeUnifiedDiff`: run the grouping loop, then
close the last hunk if its line buffer is non-empty. -/
def finalHunks (changes : List Change) (cl : Nat) : List DiffHunk :=
  let s := groupLoop changes cl
  if s.hunkLines = [] then s.hunks else (closeHunk changes cl s).hunks

/-- Rendering one hunk: the `@@ -<startA+1>,<countA> +<startB+1>,<countB> @@`
header followed by the buffered lines. -/
def renderHunk (h : DiffHunk) : List String :=
  ("@@ -" ++ toString (h.startA + 1) ++ "," ++ toString h.countA ++
      " +" ++ toString (h.startB + 1) ++ "," ++ toString h.countB ++ " @@") :: h.lines

/-- The function `computeUnifiedDiff(linesA, linesB, contextLines, fileA, fileB)`:
backtrack the LCS alignment, group it into hunks, and render; the empty
string when there are no hunks. -/
def computeUnifiedDiff (linesA linesB : List String) (contextLines : Nat)
    (fileA fileB : String) : String :=
  let changes := diffChanges linesA linesB
  let hunks := finalHunks changes contextLines
  if hunks = [] then ""
  else
    String.intercalate "\n"
      (("--- " ++ fileA) :: ("+++ " ++ fileB) :: (hunks.map renderHunk).flatten)

/-! ### Basic lemmas about replays and counts -/

theorem replayA_cons (c : Change) (cs : List Change) :
    replayA (c :: cs) = if c.type = .insert then replayA cs else c.text :: replayA cs := by
  by_cases h : c.type = .insert <;> simp [replayA, List.filterMap_cons, h]

theorem replayB_cons (c : Change) (cs : List Change) :
    replayB (c :: cs) = if c.type = .delete then replayB cs else c.text :: replayB cs := by
  by_cases h : c.type = .delete <;> simp [replayB, List.filterMap_cons, h]

theorem countType_cons (t : ChangeType) (c : Change) (cs : List Change) :
    countType t (c :: cs) = (if c.type = t then 1 else 0) + countType t cs := by
  by_cases h : c.type = t <;> simp [countType, List.filter_cons, h, Nat.add_comm]

theorem countType_reverse (t : ChangeType) (cs : List Change) :
    countType t cs.reverse = countType t cs := by
  simp [countType, List.filter_reverse]

theorem take_reverse_succ (l : List String) (j : Nat) (h : j < l.length) :
    (l.take (j + 1)).reverse = l.getD j "" :: (l.take j).reverse := by
  rw [List.take_succ]
  simp [List.getElem?_eq_getElem h, List.getD_eq_getElem l "" h]

/-- Both replays of the raw (backward) backtracking output: starting from
indices `(i, j)` the emitted records cover exactly the first `i` lines of
`a` on the A-side and the first `j` lines of `b` on the B-side, in
reverse order. -/
theorem backtrackAux_replay (a b : List String) :
    ∀ i j, i ≤ a.length → j ≤ b.length →
      replayA (backtrackAux a b i j) = (a.take i).reverse ∧
      replayB (backtrackAux a b i j) = (b.take j).reverse := by
  intro i j
  induction i, j using backtrack_induct a b with
  | case1 =>
    intro _ _
    simp [backtrackAux_zero_zero, replayA, replayB]
  | case2 j ih =>
    intro _ hj
    rw [backtrackAux_zero_succ]
    rw [replayA_cons, replayB_cons]
    have hj' : j < b.length := Nat.lt_of_succ_le hj
    obtain ⟨ihA, ihB⟩ := ih (Nat.zero_le _) (Nat.le_of_lt hj')
    constructor
    · simpa using ihA
    · simp [ihB, take_reverse_succ b j hj']
  | case3 i ih =>
    intro hi _
    rw [backtrackAux_succ_zero]
    rw [replayA_cons, replayB_cons]
    have hi' : i < a.length := Nat.lt_of_succ_le hi
    obtain ⟨ihA, ihB⟩ := ih (Nat.le_of_lt hi') (Nat.zero_le _)
    constructor
    · simp [ihA, take_reverse_succ a i hi']
    · simpa using ihB
  | case4 i j heq ih =>
    intro hi hj
    rw [backtrackAux_succ_succ, if_pos heq]
    rw [replayA_cons, replayB_cons]
    have hi' : i < a.length := Nat.lt_of_succ_le hi
    have hj' : j < b.length := Nat.lt_of_succ_le hj
    obtain ⟨ihA, ihB⟩ := ih (Nat.le_of_lt hi') (Nat.le_of_lt hj')
    constructor
    · simp [ihA, take_reverse_succ a i hi']
    · simp [ihB, take_reverse_succ b j hj']
      simpa [List.getD] using heq
  | case5 i j heq hle ih =>
    intro hi hj
    rw [backtrackAux_succ_succ, if_neg heq, if_pos hle]
    rw [replayA_cons, replayB_cons]
    have hj' : j < b.length := Nat.lt_of_succ_le hj
    obtain ⟨ihA, ihB⟩ := ih hi (Nat.le_of_lt hj')
    constructor
    · simpa using ihA
    · simp [ihB, take_reverse_succ b j hj']
  | case6 i j heq hle ih =>
    intro hi hj
    rw [backtrackAux_succ_succ, if_neg heq, if_neg hle]
    rw [replayA_cons, replayB_cons]
    have hi' : i < a.length := Nat.lt_of_succ_le hi
    obtain ⟨ihA, ihB⟩ := ih (Nat.le_of_lt hi') hj
    constructor
    · simp [ihA, take_reverse_succ a i hi']
    · simpa using ihB

theorem replayA_diffChanges (a b : List String) : replayA (diffChanges a b) = a := by
  obtain ⟨hA, _⟩ :=
    backtrackAux_replay a b a.length b.length (Nat.le_refl _) (Nat.le_refl _)
  rw [diffChanges, replayA, List.filterMap_reverse]
  rw [replayA] at hA
  rw [hA]
  simp

theorem replayB_diffChanges (a b : List String) : replayB (diffChanges a b) = b := by
  obtain ⟨_, hB⟩ :=
    backtrackAux_replay a b a.length b.length (Nat.le_refl _) (Nat.le_refl _)
  rw [diffChanges, replayB, List.filterMap_reverse]
  rw [replayB] at hB
  rw [hB]
  simp

/-- C1: for every pair of line sequences `a` and `b`, in the ordered
change list produced by the backtracking phase of `computeUnifiedDiff`,
the texts of the `equal` and `delete` records, concatenated in list
order, reconstruct `a` exactly, and the texts of the `equal` and
`insert` records, concatenated in list order, reconstruct `b` exactly. -/
theorem diffChanges_reconstruction (a b : List String) :
    replayA (diffChanges a b) = a ∧ replayB (diffChanges a b) = b :=
  ⟨replayA_diffChanges a b, replayB_diffChanges a b⟩

/-! ### Counting lemmas: the backtracked alignment realises the DP value -/

theorem computeLCS_zero_left (a b : List String) (j : Nat) : computeLCS a b 0 j = 0 := rfl

theorem computeLCS_zero_right (a b : List String) (i : Nat) : computeLCS a b i 0 = 0 := by
  cases i <;> rfl

theorem computeLCS_succ_succ (a b : List String) (i j : Nat) :
    computeLCS a b (i + 1) (j + 1) =
      if a.getD i "" = b.getD j "" then computeLCS a b i j + 1
      else max (computeLCS a b i (j + 1)) (computeLCS a b (i + 1) j) := rfl

/-- Every backward step of the backtracking loop consumes one line of `a`
(`equal` or `delete`) or one line of `b` (`equal` or `insert`): the record
counts from state `(i, j)` add up to `i` on the A-side and `j` on the
B-side. -/
theorem backtrackAux_counts (a b : List String) :
    ∀ i j,
      countType .delete (backtrackAux a b i j) + countType .equal (backtrackAux a b i j) = i ∧
      countType .insert (backtrackAux a b i j) + countType .equal (backtrackAux a b i j) = j := by
  intro i j
  induction i, j using backtrack_induct a b with
  | case1 => simp [backtrackAux_zero_zero, countType]
  | case2 j ih =>
    obtain ⟨h1, h2⟩ := ih
    rw [backtrackAux_zero_succ]
    simp only [countType_cons]
    simp
    omega
  | case3 i ih =>
    obtain ⟨h1, h2⟩ := ih
    rw [backtrackAux_succ_zero]
    simp only [countType_cons]
    simp
    omega
  | case4 i j heq ih =>
    obtain ⟨h1, h2⟩ := ih
    rw [backtrackAux_succ_succ, if_pos heq]
    simp only [countType_cons]
    simp
    omega
  | case5 i j heq hle ih =>
    obtain ⟨h1, h2⟩ := ih
    rw [backtrackAux_succ_succ, if_neg heq, if_pos hle]
    simp only [countType_cons]
    simp
    omega
  | case6 i j heq hle ih =>
    obtain ⟨h1, h2⟩ := ih
    rw [backtrackAux_succ_succ, if_neg heq, if_neg hle]
    simp only [countType_cons]
    simp
    omega

/-- The number of `equal` records emitted by the backtracking loop from
state `(i, j)` is exactly the DP entry `dp[i][j]`. -/
theorem backtrackAux_countEq (a b : List String) :
    ∀ i j, countType .equal (backtrackAux a b i j) = computeLCS a b i j := by
  intro i j
  induction i, j using backtrack_induct a b with
  | case1 => simp [backtrackAux_zero_zero, countType, computeLCS_zero_left]
  | case2 j ih =>
    rw [backtrackAux_zero_succ]
    rw [countType_cons]
    simp only [computeLCS_zero_left] at ih ⊢
    simpa using ih
  | case3 i ih =>
    rw [backtrackAux_succ_zero]
    rw [countType_cons]
    simp only [computeLCS_zero_right] at ih ⊢
    simpa using ih
  | case4 i j heq ih =>
    rw [backtrackAux_succ_succ, if_pos heq]
    rw [countType_cons]
    rw [computeLCS_succ_succ, if_pos heq]
    simp [ih]
    omega
  | case5 i j heq hle ih =>
    rw [backtrackAux_succ_succ, if_neg heq, if_pos hle]
    rw [countType_cons]
    rw [computeLCS_succ_succ, if_neg heq, Nat.max_eq_right hle]
    simpa using ih
  | case6 i j heq hle ih =>
    rw [backtrackAux_succ_succ, if_neg heq, if_neg hle]
    rw [countType_cons]
    rw [computeLCS_succ_succ, if_neg heq,
      Nat.max_eq_left (Nat.le_of_lt (Nat.lt_of_not_le hle))]
    simpa using ih

/-! ### DP-table facts needed for minimality -/

/-- The DP entry `dp[i][j]` depends only on the first `i` lines of `a` and
the first `j` lines of `b`. -/
theorem computeLCS_congr (a b a2 b2 : List String) :
    ∀ n i j, i + j ≤ n →
      (∀ k, k < i → a.getD k "" = a2.getD k "") →
      (∀ k, k < j → b.getD k "" = b2.getD k "") →
      computeLCS a b i j = computeLCS a2 b2 i j := by
  intro n
  induction n with
  | zero =>
    intro i j hn _ _
    have hi : i = 0 := by omega
    subst hi
    simp [computeLCS_zero_left]
  | succ n ih =>
    intro i j hn ha hb
    cases i with
    | zero => simp [computeLCS_zero_left]
    | succ i =>
      cases j with
      | zero => simp [computeLCS_zero_right]
      | succ j =>
        rw [computeLCS_succ_succ, computeLCS_succ_succ]
        rw [ha i (by omega), hb j (by omega)]
        by_cases h : a2.getD i "" = b2.getD j ""
        · rw [if_pos h, if_pos h,
            ih i j (by omega) (fun k hk => ha k (by omega)) (fun k hk => hb k (by omega))]
        · rw [if_neg h, if_neg h,
            ih i (j + 1) (by omega) (fun k hk => ha k (by omega)) (fun k hk => hb k hk),
            ih (i + 1) j (by omega) (fun k hk => ha k hk) (fun k hk => hb k (by omega))]

/-- Monotonicity and unit-increment bounds of the DP table: each entry is
monotone in both indices and grows by at most one per step. -/
theorem computeLCS_mono_bounds (a b : List String) :
    ∀ n i j, i + j ≤ n →
      computeLCS a b i j ≤ computeLCS a b (i + 1) j ∧
      computeLCS a b i j ≤ computeLCS a b i (j + 1) ∧
      computeLCS a b (i + 1) j ≤ computeLCS a b i j + 1 ∧
      computeLCS a b i (j + 1) ≤ computeLCS a b i j + 1 := by
  intro n
  induction n with
  | zero =>
    intro i j h
    have hi : i = 0 := by omega
    have hj : j = 0 := by omega
    subst hi
    subst hj
    simp [computeLCS_zero_left, computeLCS_zero_right]
  | succ n ih =>
    intro i j h
    refine ⟨?_, ?_, ?_, ?_⟩
    · cases j with
      | zero => simp [computeLCS_zero_right]
      | succ j =>
        rw [computeLCS_succ_succ a b i j]
        by_cases hc : a.getD i "" = b.getD j ""
        · rw [if_pos hc]
          exact (ih i j (by omega)).2.2.2
        · rw [if_neg hc]
          exact Nat.le_max_left _ _
    · cases i with
      | zero => simp [computeLCS_zero_left]
      | succ i =>
        rw [computeLCS_succ_succ a b i j]
        by_cases hc : a.getD i "" = b.getD j ""
        · rw [if_pos hc]
          exact (ih i j (by omega)).2.2.1
        · rw [if_neg hc]
          exact Nat.le_max_right _ _
    · cases j with
      | zero =>
        simp [computeLCS_zero_right]
      | succ j =>
        rw [computeLCS_succ_succ a b i j]
        by_cases hc : a.getD i "" = b.getD j ""
        · rw [if_pos hc]
          exact Nat.succ_le_succ (ih i j (by omega)).2.1
        · rw [if_neg hc]
          refine Nat.max_le.mpr ⟨Nat.le_succ _, ?_⟩
          exact Nat.le_trans (ih i j (by omega)).2.2.1
            (Nat.succ_le_succ (ih i j (by omega)).2.1)
    · cases i with
      | zero => simp [computeLCS_zero_left]
      | succ i =>
        rw [computeLCS_succ_succ a b i j]
        by_cases hc : a.getD i "" = b.getD j ""
        · rw [if_pos hc]
          exact Nat.succ_le_succ (ih i j (by omega)).1
        · rw [if_neg hc]
          refine Nat.max_le.mpr ⟨?_, Nat.le_succ _⟩
          exact Nat.le_trans (ih i j (by omega)).2.2.2
            (Nat.succ_le_succ (ih i j (by omega)).1)

theorem getD_concat_lt (l : List String) (x : String) (k : Nat) (h : k < l.length) :
    (l ++ [x]).getD k "" = l.getD k "" :=
  List.getD_append l [x] "" k h

theorem getD_concat_len (l : List String) (x : String) :
    (l ++ [x]).getD l.length "" = x := by
  rw [List.getD_append_right l [x] "" l.length (Nat.le_refl _)]
  simp

theorem replayA_concat (cs : List Change) (c : Change) :
    replayA (cs ++ [c]) =
      replayA cs ++ (if c.type = .insert then [] else [c.text]) := by
  by_cases h : c.type = .insert <;> simp [replayA, List.filterMap_append, h]

theorem replayB_concat (cs : List Change) (c : Change) :
    replayB (cs ++ [c]) =
      replayB cs ++ (if c.type = .delete then [] else [c.text]) := by
  by_cases h : c.type = .delete <;> simp [replayB, List.filterMap_append, h]

theorem countType_concat (t : ChangeType) (cs : List Change) (c : Change) :
    countType t (cs ++ [c]) = countType t cs + (if c.type = t then 1 else 0) := by
  by_cases h : c.type = t <;> simp [countType, List.filter_append, h]

/-- The `equal` records of any change list form a common subsequence of
its two replays, so the DP entry at the full lengths bounds their number. -/
theorem countEq_le_dp (cs : List Change) :
    countType .equal cs ≤
      computeLCS (replayA cs) (replayB cs) (replayA cs).length (replayB cs).length := by
  induction cs using List.reverseRecOn with
  | nil => simp [countType, replayA, replayB]
  | append_singleton cs c ih =>
    rw [replayA_concat, replayB_concat, countType_concat]
    cases hct : c.type with
    | equal =>
      simp only [hct, reduceCtorEq, reduceIte, if_true, if_false,
        List.length_append, List.length_singleton]
      rw [computeLCS_succ_succ, getD_concat_len, getD_concat_len, if_pos rfl]
      have he : computeLCS (replayA cs ++ [c.text]) (replayB cs ++ [c.text])
          (replayA cs).length (replayB cs).length =
          computeLCS (replayA cs) (replayB cs) (replayA cs).length (replayB cs).length := by
        refine computeLCS_congr _ _ _ _ ((replayA cs).length + (replayB cs).length) _ _
          (Nat.le_refl _) ?_ ?_
        · intro k hk
          exact getD_concat_lt _ _ k hk
        · intro k hk
          exact getD_concat_lt _ _ k hk
      rw [he]
      omega
    | insert =>
      simp only [hct, reduceCtorEq, reduceIte, if_true, if_false,
        List.append_nil, List.length_append, List.length_singleton]
      have he : computeLCS (replayA cs) (replayB cs ++ [c.text])
          (replayA cs).length (replayB cs).length =
          computeLCS (replayA cs) (replayB cs) (replayA cs).length (replayB cs).length := by
        refine computeLCS_congr _ _ _ _ ((replayA cs).length + (replayB cs).length) _ _
          (Nat.le_refl _) (fun k _ => rfl) ?_
        intro k hk
        exact getD_concat_lt _ _ k hk
      have hm := (computeLCS_mono_bounds (replayA cs) (replayB cs ++ [c.text])
        ((replayA cs).length + (replayB cs).length) (replayA cs).length
        (replayB cs).length (Nat.le_refl _)).2.1
      omega
    | delete =>
      simp only [hct, reduceCtorEq, reduceIte, if_true, if_false,
        List.append_nil, List.length_append, List.length_singleton]
      have he : computeLCS (replayA cs ++ [c.text]) (replayB cs)
          (replayA cs).length (replayB cs).length =
          computeLCS (replayA cs) (replayB cs) (replayA cs).length (replayB cs).length := by
        refine computeLCS_congr _ _ _ _ ((replayA cs).length + (replayB cs).length) _ _
          (Nat.le_refl _) ?_ (fun k _ => rfl)
        intro k hk
        exact getD_concat_lt _ _ k hk
      have hm := (computeLCS_mono_bounds (replayA cs ++ [c.text]) (replayB cs)
        ((replayA cs).length + (replayB cs).length) (replayA cs).length
        (replayB cs).length (Nat.le_refl _)).1
      omega

theorem replayA_length (cs : List Change) :
    (replayA cs).length = countType .delete cs + countType .equal cs := by
  induction cs with
  | nil => simp [replayA, countType]
  | cons c cs ih =>
    rw [replayA_cons, countType_cons, countType_cons]
    cases hct : c.type <;> simp [ih] <;> omega

theorem replayB_length (cs : List Change) :
    (replayB cs).length = countType .insert cs + countType .equal cs := by
  induction cs with
  | nil => simp [replayB, countType]
  | cons c cs ih =>
    rw [replayB_cons, countType_cons, countType_cons]
    cases hct : c.type <;> simp [ih] <;> omega

/-- C2: the number of `insert` plus `delete` records in the backtracked
change list equals `lenA + lenB - 2 * dp[lenA][lenB]` where `dp` is the
table built by `computeLCS`; and no other alignment of `a` and `b` (any
change list whose replays reconstruct `a` and `b`) has fewer non-`equal`
records. -/
theorem diffChanges_minimal (a b : List String) :
    countType .insert (diffChanges a b) + countType .delete (diffChanges a b) =
      a.length + b.length - 2 * computeLCS a b a.length b.length ∧
    ∀ cs : List Change, replayA cs = a → replayB cs = b →
      countType .insert (diffChanges a b) + countType .delete (diffChanges a b) ≤
        countType .insert cs + countType .delete cs := by
  obtain ⟨hdA, hdB⟩ := backtrackAux_counts a b a.length b.length
  have hdE := backtrackAux_countEq a b a.length b.length
  have rI : countType .insert (diffChanges a b) =
      countType .insert (backtrackAux a b a.length b.length) := countType_reverse _ _
  have rD : countType .delete (diffChanges a b) =
      countType .delete (backtrackAux a b a.length b.length) := countType_reverse _ _
  constructor
  · omega
  · intro cs hA hB
    have h1 := countEq_le_dp cs
    rw [hA, hB] at h1
    have h2 := replayA_length cs
    have h3 := replayB_length cs
    rw [hA] at h2
    rw [hB] at h3
    omega

/-- Witness for `diffChanges_minimal`: on `A = ["x"]`, `B = ["y"]` the
backtracked alignment has no more non-`equal` records than the concrete
alignment that deletes `x` and inserts `y`. -/
theorem diffChanges_minimal_witness :
    countType .insert (diffChanges ["x"] ["y"]) + countType .delete (diffChanges ["x"] ["y"]) ≤
      countType .insert [⟨.delete, some 0, none, "x"⟩, ⟨.insert, none, some 0, "y"⟩] +
        countType .delete [⟨.delete, some 0, none, "x"⟩, ⟨.insert, none, some 0, "y"⟩] :=
  (diffChanges_minimal ["x"] ["y"]).2
    [⟨.delete, some 0, none, "x"⟩, ⟨.insert, none, some 0, "y"⟩] (by decide) (by decide)

/-! ### The empty-report characterisation -/

/-- Comparing a sequence against itself backtracks to all-`equal` records. -/
theorem backtrackAux_self_equal (a : List String) :
    ∀ i, ∀ c ∈ backtrackAux a a i i, c.type = .equal := by
  intro i
  induction i with
  | zero => simp [backtrackAux_zero_zero]
  | succ i ih =>
    rw [backtrackAux_succ_succ, if_pos rfl]
    intro c hc
    rcases List.mem_cons.mp hc with rfl | hc'
    · rfl
    · exact ih c hc'

/-- On a change list of `equal` records only, both replays coincide. -/
theorem replay_eq_of_all_equal (cs : List Change) (h : ∀ c ∈ cs, c.type = .equal) :
    replayA cs = replayB cs := by
  induction cs with
  | nil => rfl
  | cons c cs ih =>
    rw [replayA_cons, replayB_cons]
    have hc := h c (by simp)
    rw [hc]
    simp only [reduceCtorEq, reduceIte, if_true, if_false]
    rw [ih fun c hc => h c (by simp [hc])]

/-- An `equal` record (or an out-of-range index) leaves the grouping state
untouched. -/
theorem groupStep_equal_all (changes : List Change) (cl : Nat)
    (h : ∀ c ∈ changes, c.type = .equal) (s : GroupState) (idx : Nat) :
    groupStep changes cl s idx = s := by
  unfold groupStep
  cases hg : changes.get? idx with
  | none => rfl
  | some c =>
    have hc : c.type = .equal := h c (List.get?_mem hg)
    simp [hc]

theorem foldl_groupStep_id (changes : List Change) (cl : Nat)
    (h : ∀ c ∈ changes, c.type = .equal) (l : List Nat) (s : GroupState) :
    l.foldl (groupStep changes cl) s = s := by
  induction l generalizing s with
  | nil => rfl
  | cons i l ih =>
    rw [List.foldl_cons, groupStep_equal_all changes cl h s i]
    exact ih s

/-- The rendered line a change record contributes to its hunk. -/
theorem groupEmit_hunkLines (idx : Nat) (c : Change) (s2 : GroupState) :
    (groupEmit idx c s2).hunkLines =
      s2.hunkLines ++ [if c.type = .delete then "-" ++ c.text else "+" ++ c.text] := by
  by_cases h : c.type = .delete <;> simp [groupEmit, h]

theorem groupEmit_hunks (idx : Nat) (c : Change) (s2 : GroupState) :
    (groupEmit idx c s2).hunks = s2.hunks := by
  by_cases h : c.type = .delete <;> simp [groupEmit, h]

theorem groupContext_hunks (changes : List Change) (cl : Nat) (idx : Nat) (c : Change)
    (s1 : GroupState) : (groupContext changes cl idx c s1).hunks = s1.hunks := by
  unfold groupContext
  split <;> rfl

theorem groupContext_lastChangeIdx (changes : List Change) (cl : Nat) (idx : Nat) (c : Change)
    (s1 : GroupState) : (groupContext changes cl idx c s1).lastChangeIdx = s1.lastChangeIdx := by
  unfold groupContext
  split <;> rfl

/-- Closing a hunk pushes exactly one hunk, built from the buffered lines
plus the trailing context. -/
theorem closeHunk_hunks (changes : List Change) (cl : Nat) (s : GroupState) :
    (closeHunk changes cl s).hunks = s.hunks ++
      [⟨s.hunkStartA,
        s.hunkCountA + (trailingRun changes (s.lastChangeIdx + 1).toNat cl).length,
        s.hunkStartB,
        s.hunkCountB + (trailingRun changes (s.lastChangeIdx + 1).toNat cl).length,
        s.hunkLines ++ (trailingRun changes (s.lastChangeIdx + 1).toNat cl).map
          fun ch : Change => " " ++ ch.text⟩] := rfl

/-- Processing a non-`equal` record always leaves a non-empty line buffer:
the `-`/`+` line of the change itself is appended last. -/
theorem groupStep_nonequal_hunkLines (changes : List Change) (cl : Nat) (s : GroupState)
    (idx : Nat) (c : Change) (hg : changes.get? idx = some c) (hc : ¬c.type = .equal) :
    (groupStep changes cl s idx).hunkLines ≠ [] := by
  unfold groupStep
  rw [hg]
  dsimp only
  rw [if_neg hc, groupEmit_hunkLines]
  simp

/-- The grouping step preserves the invariant that a hunk has been opened
or pushed. -/
theorem groupStep_preserves (changes : List Change) (cl : Nat) (s : GroupState) (idx : Nat)
    (h : s.hunkLines ≠ [] ∨ s.hunks ≠ []) :
    (groupStep changes cl s idx).hunkLines ≠ [] ∨ (groupStep changes cl s idx).hunks ≠ [] := by
  cases hg : changes.get? idx with
  | none =>
    unfold groupStep
    rw [hg]
    exact h
  | some c =>
    by_cases hc : c.type = .equal
    · unfold groupStep
      rw [hg]
      simpa [hc] using h
    · exact Or.inl (groupStep_nonequal_hunkLines changes cl s idx c hg hc)

theorem foldl_group_invariant (changes : List Change) (cl : Nat) :
    ∀ (l : List Nat) (s : GroupState),
      ((s.hunkLines ≠ [] ∨ s.hunks ≠ []) ∨
        ∃ idx ∈ l, ∃ c, changes.get? idx = some c ∧ c.type ≠ .equal) →
      ((l.foldl (groupStep changes cl) s).hunkLines ≠ [] ∨
        (l.foldl (groupStep changes cl) s).hunks ≠ []) := by
  intro l
  induction l with
  | nil =>
    intro s h
    simpa using h
  | cons i l ih =>
    intro s h
    rw [List.foldl_cons]
    rcases h with hP | ⟨idx, hmem, c, hg, hc⟩
    · exact ih _ (Or.inl (groupStep_preserves changes cl s i hP))
    · rcases List.mem_cons.mp hmem with rfl | hmem'
      · exact ih _ (Or.inl (Or.inl (groupStep_nonequal_hunkLines changes cl s idx c hg hc)))
      · exact ih _ (Or.inr ⟨idx, hmem', c, hg, hc⟩)

/-- If the change list contains any non-`equal` record, at least one hunk
is produced. -/
theorem finalHunks_ne_nil (changes : List Change) (cl : Nat) (c : Change)
    (hmem : c ∈ changes) (hc : c.type ≠ .equal) :
    finalHunks changes cl ≠ [] := by
  obtain ⟨idx, hg⟩ := List.mem_iff_get?.mp hmem
  have hidx : idx ∈ List.range changes.length := by
    rw [List.mem_range]
    by_contra hlt
    push_neg at hlt
    rw [List.get?_eq_none.mpr hlt] at hg
    cases hg
  have hP := foldl_group_invariant changes cl (List.range changes.length) initGroupState
    (Or.inr ⟨idx, hidx, c, hg, hc⟩)
  unfold finalHunks
  unfold groupLoop at hP ⊢
  by_cases hL : ((List.range changes.length).foldl (groupStep changes cl)
      initGroupState).hunkLines = []
  · rw [if_pos hL]
    rcases hP with hP | hP
    · exact absurd hL hP
    · exact hP
  · rw [if_neg hL]
    simp [closeHunk]

theorem intercalate_go_length (s : String) :
    ∀ (l : List String) (acc : String),
      acc.length ≤ (String.intercalate.go acc s l).length := by
  intro l
  induction l with
  | nil =>
    intro acc
    rw [String.intercalate.go]
  | cons x l ih =>
    intro acc
    rw [String.intercalate.go]
    refine Nat.le_trans ?_ (ih (acc ++ s ++ x))
    simp [String.length_append]
    omega

theorem intercalate_cons_length (s x : String) (l : List String) :
    x.length ≤ (String.intercalate s (x :: l)).length := by
  rw [String.intercalate]
  exact intercalate_go_length s l x

/-- C3: `computeUnifiedDiff` returns the empty string exactly when the two
line sequences are element-for-element identical, for every context width
and any labels. -/
theorem computeUnifiedDiff_empty_iff (a b : List String) (cl : Nat) (la lb : String) :
    computeUnifiedDiff a b cl la lb = "" ↔ a = b := by
  constructor
  · intro h
    by_contra hab
    have hex : ∃ c ∈ diffChanges a b, c.type ≠ .equal := by
      by_contra hall
      push_neg at hall
      exact hab ((replayA_diffChanges a b).symm.trans
        ((replay_eq_of_all_equal _ hall).trans (replayB_diffChanges a b)))
    obtain ⟨c, hmem, hc⟩ := hex
    have hne := finalHunks_ne_nil (diffChanges a b) cl c hmem hc
    unfold computeUnifiedDiff at h
    rw [if_neg hne] at h
    have hlen := intercalate_cons_length "\n" ("--- " ++ la)
      (("+++ " ++ lb) :: ((finalHunks (diffChanges a b) cl).map renderHunk).flatten)
    rw [h] at hlen
    rw [String.length_append] at hlen
    have h4 : (4 : Nat) ≤ "--- ".length + la.length := by
      have : "--- ".length = 4 := by decide
      omega
    have h0 : ("" : String).length = 0 := by decide
    omega
  · rintro rfl
    have hall : ∀ c ∈ diffChanges a a, c.type = .equal := by
      intro c hmem
      rw [diffChanges] at hmem
      exact backtrackAux_self_equal a a.length c (List.mem_reverse.mp hmem)
    have hloop : groupLoop (diffChanges a a) cl = initGroupState := by
      unfold groupLoop
      exact foldl_groupStep_id _ _ hall _ _
    have hfin : finalHunks (diffChanges a a) cl = [] := by
      unfold finalHunks
      rw [hloop]
      simp [initGroupState]
    unfold computeUnifiedDiff
    rw [if_pos hfin]

/-! ### Tie-break policy and termination of the backtracking loop -/

/-- C6: in the backtracking loop, whenever both indices are positive and
the current lines match, an `equal` record is emitted (matching lines win
over every other option); and whenever they do not match but
`dp[i][j-1] = dp[i-1][j]` (at state `(i + 1, j + 1)` these are the entries
`computeLCS a b (i+1) j` and `computeLCS a b i (j+1)`), an `insert`
record consuming from `b` is emitted rather than a `delete`. -/
theorem backtrack_tiebreak (a b : List String) (i j : Nat) :
    (a.getD i "" = b.getD j "" →
      backtrackAux a b (i + 1) (j + 1) =
        ⟨.equal, some i, some j, a.getD i ""⟩ :: backtrackAux a b i j) ∧
    (a.getD i "" ≠ b.getD j "" →
      computeLCS a b (i + 1) j = computeLCS a b i (j + 1) →
      backtrackAux a b (i + 1) (j + 1) =
        ⟨.insert, none, some j, b.getD j ""⟩ :: backtrackAux a b (i + 1) j) := by
  constructor
  · intro h
    rw [backtrackAux_succ_succ, if_pos h]
  · intro h htie
    rw [backtrackAux_succ_succ, if_neg h, if_pos (Nat.le_of_eq htie.symm)]

/-- Witness for `backtrack_tiebreak`: a matching pair emits `equal`, and
a mismatched pair with a DP tie emits `insert`. -/
theorem backtrack_tiebreak_witness :
    backtrackAux ["x"] ["x"] 1 1 =
      ⟨.equal, some 0, some 0, "x"⟩ :: backtrackAux ["x"] ["x"] 0 0 ∧
    backtrackAux ["x"] ["y"] 1 1 =
      ⟨.insert, none, some 0, "y"⟩ :: backtrackAux ["x"] ["y"] 1 0 :=
  ⟨(backtrack_tiebreak ["x"] ["x"] 0 0).1 (by decide),
    (backtrack_tiebreak ["x"] ["y"] 0 0).2 (by decide) (by decide)⟩

/-- C9: `computeUnifiedDiff` is total — every input yields a well-defined
string — because the backtracking loop emits at most `i + j` records and
each iteration strictly decreases `i + j` (the remaining work is again a
loop state with a smaller index sum); the later loops are structural
folds over the finite change list. -/
theorem computeUnifiedDiff_total (a b : List String) (cl : Nat) (la lb : String) :
    (∃ s : String, computeUnifiedDiff a b cl la lb = s) ∧
    ∀ i j, (backtrackAux a b i j).length ≤ i + j ∧
      (0 < i + j → ∃ c i2 j2, i2 + j2 < i + j ∧
        backtrackAux a b i j = c :: backtrackAux a b i2 j2) := by
  refine ⟨⟨_, rfl⟩, ?_⟩
  intro i j
  constructor
  · induction i, j using backtrack_induct a b with
    | case1 => simp [backtrackAux_zero_zero]
    | case2 j ih =>
      rw [backtrackAux_zero_succ]
      simp only [List.length_cons]
      omega
    | case3 i ih =>
      rw [backtrackAux_succ_zero]
      simp only [List.length_cons]
      omega
    | case4 i j heq ih =>
      rw [backtrackAux_succ_succ, if_pos heq]
      simp only [List.length_cons]
      omega
    | case5 i j heq hle ih =>
      rw [backtrackAux_succ_succ, if_neg heq, if_pos hle]
      simp only [List.length_cons]
      omega
    | case6 i j heq hle ih =>
      rw [backtrackAux_succ_succ, if_neg heq, if_neg hle]
      simp only [List.length_cons]
      omega
  · intro hpos
    cases i with
    | zero =>
      cases j with
      | zero => omega
      | succ j =>
        exact ⟨_, 0, j, by omega, backtrackAux_zero_succ a b j⟩
    | succ i =>
      cases j with
      | zero =>
        exact ⟨_, i, 0, by omega, backtrackAux_succ_zero a b i⟩
      | succ j =>
        by_cases heq : a.getD i "" = b.getD j ""
        · exact ⟨_, i, j, by omega, by rw [backtrackAux_succ_succ, if_pos heq]⟩
        · by_cases hle : computeLCS a b i (j + 1) ≤ computeLCS a b (i + 1) j
          · exact ⟨_, i + 1, j, by omega,
              by rw [backtrackAux_succ_succ, if_neg heq, if_pos hle]⟩
          · exact ⟨_, i, j + 1, by omega,
              by rw [backtrackAux_succ_succ, if_neg heq, if_neg hle]⟩

/-- Witness for `computeUnifiedDiff_total` at a concrete loop state. -/
theorem computeUnifiedDiff_total_witness :
    0 < 1 + 1 ∧ ∃ c i2 j2, i2 + j2 < 1 + 1 ∧
      backtrackAux ["x"] ["y"] 1 1 = c :: backtrackAux ["x"] ["y"] i2 j2 :=
  ⟨by decide, ((computeUnifiedDiff_total ["x"] ["y"] 3 "a" "b").2 1 1).2 (by decide)⟩

/-! ### The pure-insertion report -/

/-- C7 counterexample: on `A = []`, `B = ["new"]` with context `3` the
single hunk is rendered with header `@@ -1,0 +1,1 @@` (the renderer always
prints `startA + 1`), not `@@ -0,0 +1,1 @@` as claimed. -/
theorem pureInsertion_header_counterexample :
    computeUnifiedDiff [] ["new"] 3 "fileA" "fileB" =
      "--- fileA\n+++ fileB\n@@ -1,0 +1,1 @@\n+new" ∧
    renderHunk ⟨0, 0, 0, 1, ["+new"]⟩ ≠ "@@ -0,0 +1,1 @@" :: ["+new"] := by
  constructor <;> decide

/-- C7 amended: for `A = []`, `B = ["new"]` and context `3`,
`computeUnifiedDiff` produces exactly one hunk, whose body is the single
line `+new` and whose rendered header is `@@ -1,0 +1,1 @@`. -/
theorem pureInsertion_report (la lb : String) :
    finalHunks (diffChanges [] ["new"]) 3 = [⟨0, 0, 0, 1, ["+new"]⟩] ∧
    renderHunk ⟨0, 0, 0, 1, ["+new"]⟩ = ["@@ -1,0 +1,1 @@", "+new"] ∧
    computeUnifiedDiff [] ["new"] 3 la lb =
      String.intercalate "\n" ["--- " ++ la, "+++ " ++ lb, "@@ -1,0 +1,1 @@", "+new"] := by
  refine ⟨by decide, by decide, ?_⟩
  unfold computeUnifiedDiff
  dsimp only
  have h : finalHunks (diffChanges [] ["new"]) 3 = [⟨0, 0, 0, 1, ["+new"]⟩] := by decide
  rw [h]
  rw [if_neg]
  · have h2 : (List.map renderHunk [(⟨0, 0, 0, 1, ["+new"]⟩ : DiffHunk)]).flatten =
        ["@@ -1,0 +1,1 @@", "+new"] := by decide
    rw [h2]
  · decide

/-! ### Swapping the two inputs -/

/-- The DP table is symmetric: `dp(b, a)[j][i] = dp(a, b)[i][j]`. -/
theorem computeLCS_symm (a b : List String) :
    ∀ i j, computeLCS b a j i = computeLCS a b i j := by
  have key : ∀ n i j, i + j ≤ n → computeLCS b a j i = computeLCS a b i j := by
    intro n
    induction n with
    | zero =>
      intro i j h
      have hi : i = 0 := by omega
      have hj : j = 0 := by omega
      subst hi
      subst hj
      rfl
    | succ n ih =>
      intro i j h
      cases i with
      | zero => rw [computeLCS_zero_left, computeLCS_zero_right]
      | succ i =>
        cases j with
        | zero => rw [computeLCS_zero_left, computeLCS_zero_right]
        | succ j =>
          rw [computeLCS_succ_succ, computeLCS_succ_succ]
          rw [ih i j (by omega), ih (i + 1) j (by omega), ih i (j + 1) (by omega)]
          by_cases hc : a.getD i "" = b.getD j ""
          · rw [if_pos hc, if_pos (hc.symm)]
          · rw [if_neg hc, if_neg (fun hcc => hc hcc.symm), Nat.max_comm]
  intro i j
  exact key (i + j) i j (Nat.le_refl _)

/-- The first character of a rendered patch line decides its role; a
changed line starts with `+` or `-`. -/
def lineIsChange (l : String) : Bool :=
  (l.data.head? == some '+') || (l.data.head? == some '-')

/-- Swapping the role of a rendered change line: `+` becomes `-` and
conversely, keeping the content. -/
def swapRole (l : String) : String :=
  match l.data with
  | '+' :: rest => String.mk ('-' :: rest)
  | '-' :: rest => String.mk ('+' :: rest)
  | _ => l

/-- The changed lines of a hunk list, in rendering order. -/
def hunkChangedLines (hs : List DiffHunk) : List String :=
  ((hs.map DiffHunk.lines).flatten).filter lineIsChange

/-- C8 counterexample: for `A = ["x","y"]`, `B = ["y","x"]` the two
reports' changed lines do not carry the same content — `diff(A,B)`
deletes and re-inserts `x` while `diff(B,A)` deletes and re-inserts `y` —
so the swapped-roles correspondence claimed for every pair fails here. -/
theorem swap_symmetry_counterexample :
    computeUnifiedDiff ["x", "y"] ["y", "x"] 3 "a" "b" =
      "--- a\n+++ b\n@@ -1,2 +1,2 @@\n-x\n y\n+x" ∧
    computeUnifiedDiff ["y", "x"] ["x", "y"] 3 "a" "b" =
      "--- a\n+++ b\n@@ -1,2 +1,2 @@\n-y\n x\n+y" ∧
    hunkChangedLines (finalHunks (diffChanges ["x", "y"] ["y", "x"]) 3) = ["-x", "+x"] ∧
    hunkChangedLines (finalHunks (diffChanges ["y", "x"] ["x", "y"]) 3) = ["-y", "+y"] ∧
    ¬ List.Perm (hunkChangedLines (finalHunks (diffChanges ["y", "x"] ["x", "y"]) 3))
        ((hunkChangedLines (finalHunks (diffChanges ["x", "y"] ["y", "x"]) 3)).map swapRole) := by
  refine ⟨by decide, by decide, by decide, by decide, by decide⟩

/-- C8 amended: swapping the two inputs swaps the numbers of `insert` and
`delete` records of the backtracked change list (and hence the counts of
`+` and `-` lines of the reports), but — the LCS being non-unique in
general — the changed lines' contents need not correspond. -/
theorem swap_symmetry_counts (a b : List String) :
    countType .insert (diffChanges b a) = countType .delete (diffChanges a b) ∧
    countType .delete (diffChanges b a) = countType .insert (diffChanges a b) := by
  obtain ⟨hdA, hdB⟩ := backtrackAux_counts a b a.length b.length
  obtain ⟨hdA2, hdB2⟩ := backtrackAux_counts b a b.length a.length
  have he := backtrackAux_countEq a b a.length b.length
  have he2 := backtrackAux_countEq b a b.length a.length
  have hsym := computeLCS_symm a b a.length b.length
  have r1 : countType .insert (diffChanges b a) =
      countType .insert (backtrackAux b a b.length a.length) := countType_reverse _ _
  have r2 : countType .delete (diffChanges b a) =
      countType .delete (backtrackAux b a b.length a.length) := countType_reverse _ _
  have r3 : countType .insert (diffChanges a b) =
      countType .insert (backtrackAux a b a.length b.length) := countType_reverse _ _
  have r4 : countType .delete (diffChanges a b) =
      countType .delete (backtrackAux a b a.length b.length) := countType_reverse _ _
  omega

/-! ### The tool-boundary schema for context_lines -/

/-- The `context_lines` schema of the `cc_diff_files` tool:
`z.number().int().min(0).max(20)` — the request value (an arbitrary JSON
number, embedded as a rational) is accepted exactly when it is integral,
at least `0` and at most `20`. -/
def contextLinesValid (q : ℚ) : Bool :=
  (q.den == 1) && (decide (0 ≤ q)) && (decide (q ≤ 20))

/-- The schema default for `context_lines`: `.default(3)`. -/
def contextLinesDefault : Nat := 3

/-- The validated tool boundary (modelled from the `registerTool`
contract: the harness validates `inputSchema` before the handler runs):
an invalid `context_lines` is rejected and the diff engine never runs. -/
def ccDiffFilesRun (q : ℚ) (a b : List String) (la lb : String) : Option String :=
  if contextLinesValid q then some (computeUnifiedDiff a b q.num.toNat la lb) else none

/-- C10: `context_lines` is constrained to an integer between `0` and
`20` inclusive with default `3`: any negative, too-large, or
non-integral value fails validation and the diff engine is not invoked,
while every integer in `[0, 20]` passes. -/
theorem contextLines_schema (q : ℚ) :
    (q < 0 ∨ 20 < q ∨ q.den ≠ 1 →
      contextLinesValid q = false ∧
        ∀ a b : List String, ∀ la lb : String, ccDiffFilesRun q a b la lb = none) ∧
    (0 ≤ q → q ≤ 20 → q.den = 1 →
      contextLinesValid q = true ∧
        ∀ a b : List String, ∀ la lb : String,
          ccDiffFilesRun q a b la lb = some (computeUnifiedDiff a b q.num.toNat la lb)) ∧
    contextLinesDefault = 3 := by
  refine ⟨?_, ?_, rfl⟩
  · intro h
    have hv : contextLinesValid q = false := by
      unfold contextLinesValid
      rcases h with h | h | h
      · simp [decide_eq_false (not_le.mpr h)]
      · simp [decide_eq_false (not_le.mpr h)]
      · simp [h]
    refine ⟨hv, fun a b la lb => ?_⟩
    unfold ccDiffFilesRun
    rw [hv]
    rfl
  · intro h0 h20 hden
    have hv : contextLinesValid q = true := by
      unfold contextLinesValid
      simp [hden, h0, h20]
    refine ⟨hv, fun a b la lb => ?_⟩
    unfold ccDiffFilesRun
    rw [hv]
    rfl

/-- Witness for `contextLines_schema`: `21` is rejected before the diff
engine runs, `3` is accepted. -/
theorem contextLines_schema_witness :
    contextLinesValid 21 = false ∧ ccDiffFilesRun 21 [] [] "a" "b" = none ∧
    contextLinesValid 3 = true := by
  have h21 := (contextLines_schema 21).1 (by norm_num)
  have h3 := ((contextLines_schema 3).2.1 (by norm_num) (by norm_num) (by norm_num)).1
  exact ⟨h21.1, h21.2 [] [] "a" "b", h3⟩

/-! ### Hunk-merge threshold and context bounding -/

theorem groupClose_of_gap_gt (changes : List Change) (cl : Nat) (s : GroupState) (idx : Nat)
    (hL : s.hunkLines ≠ []) (hgap : (idx : Int) - s.lastChangeIdx > 2 * cl + 1) :
    groupClose changes cl s idx = closeHunk changes cl s := by
  unfold groupClose
  rw [if_neg (fun h => hL h.2.2.1), if_pos ⟨hgap, hL⟩]

theorem groupClose_of_gap_le (changes : List Change) (cl : Nat) (s : GroupState) (idx : Nat)
    (hgap : ¬(idx : Int) - s.lastChangeIdx > 2 * cl + 1) :
    groupClose changes cl s idx = s := by
  unfold groupClose
  rw [if_neg (fun h => hgap h.1), if_neg (fun h => hgap h.1)]

theorem groupClose_of_hunkLines_nil (changes : List Change) (cl : Nat) (s : GroupState)
    (idx : Nat) (hL : s.hunkLines = []) :
    groupClose changes cl s idx = s := by
  unfold groupClose
  by_cases hcond : (idx : Int) - s.lastChangeIdx > 2 * cl + 1 ∧ s.hunks = [] ∧
      s.hunkLines = [] ∧ s.lastChangeIdx < 0
  · rw [if_pos hcond]
  · rw [if_neg hcond, if_neg (fun h => h.2 hL)]

/-- C4: while a hunk is open, a change record at `idx` with the previous
change at `p` (the records strictly between two consecutive changes are
the intervening `equal` records, `idx - p - 1` many) is placed in the
same hunk — the hunk list is unchanged by the step — exactly when that
gap is at most `2 * contextLines`; otherwise the open hunk is closed and
pushed.  With context `3`, the concrete inputs whose two changes are
separated by exactly `6` unchanged lines produce one merged hunk, and by
`7` produce two hunks. -/
theorem hunk_merge_threshold (changes : List Change) (cl : Nat) (s : GroupState)
    (idx p : Nat) (c : Change)
    (hg : changes.get? idx = some c) (hc : ¬c.type = .equal)
    (hL : s.hunkLines ≠ []) (hp : s.lastChangeIdx = (p : Int)) (hpi : p < idx) :
    ((groupStep changes cl s idx).hunks = s.hunks ↔ idx - p - 1 ≤ 2 * cl) ∧
    (finalHunks (diffChanges ["c1", "e1", "e2", "e3", "e4", "e5", "e6", "c2"]
      ["d1", "e1", "e2", "e3", "e4", "e5", "e6", "d2"]) 3).length = 1 ∧
    (finalHunks (diffChanges ["c1", "e1", "e2", "e3", "e4", "e5", "e6", "e7", "c2"]
      ["d1", "e1", "e2", "e3", "e4", "e5", "e6", "e7", "d2"]) 3).length = 2 := by
  refine ⟨?_, by decide, by decide⟩
  unfold groupStep
  rw [hg]
  dsimp only
  rw [if_neg hc, groupEmit_hunks, groupContext_hunks]
  by_cases hgap : (idx : Int) - s.lastChangeIdx > 2 * cl + 1
  · rw [groupClose_of_gap_gt changes cl s idx hL hgap, closeHunk_hunks]
    rw [hp] at hgap
    constructor
    · intro habs
      have hlen := congrArg List.length habs
      simp at hlen
    · intro hle
      exfalso
      omega
  · rw [groupClose_of_gap_le changes cl s idx hgap]
    rw [hp] at hgap
    exact ⟨fun _ => by omega, fun _ => rfl⟩

/-- Witness for `hunk_merge_threshold`: a second change one index after
the previous one (no intervening equals) joins the open hunk. -/
theorem hunk_merge_threshold_witness :
    ((groupStep [⟨.delete, some 0, none, "x"⟩, ⟨.insert, none, some 0, "y"⟩] 3
        ⟨[], ["-x"], 0, 0, 1, 0, 0⟩ 1).hunks =
      (⟨[], ["-x"], 0, 0, 1, 0, 0⟩ : GroupState).hunks ↔ 1 - 0 - 1 ≤ 2 * 3) ∧
    (finalHunks (diffChanges ["c1", "e1", "e2", "e3", "e4", "e5", "e6", "c2"]
      ["d1", "e1", "e2", "e3", "e4", "e5", "e6", "d2"]) 3).length = 1 ∧
    (finalHunks (diffChanges ["c1", "e1", "e2", "e3", "e4", "e5", "e6", "e7", "c2"]
      ["d1", "e1", "e2", "e3", "e4", "e5", "e6", "e7", "d2"]) 3).length = 2 :=
  hunk_merge_threshold
    [⟨.delete, some 0, none, "x"⟩, ⟨.insert, none, some 0, "y"⟩] 3
    ⟨[], ["-x"], 0, 0, 1, 0, 0⟩ 1 0 ⟨.insert, none, some 0, "y"⟩
    (by decide) (by decide) (by decide) (by decide) (by decide)

/-- The length of the run of `equal` records immediately preceding index
`idx`, following the spec's wording for the available leading context. -/
def equalRunBefore (changes : List Change) (idx : Nat) : Nat :=
  ((changes.take idx).reverse.takeWhile fun c => c.type = .equal).length

/-- C5: opening a hunk at a change record buffers exactly the leading
context followed by the change's own line, where the leading context
consists of `min contextLines r` `equal` records for `r` the length of
the `equal` run immediately preceding the change; and whenever a hunk is
closed, the appended trailing context consists of
`min contextLines e` lines for `e` the number of `equal` records
available after the position the scan starts from. -/
theorem hunk_context_bounds (changes : List Change) (cl : Nat) (s : GroupState)
    (idx : Nat) (c : Change) (hg : changes.get? idx = some c) (hc : ¬c.type = .equal)
    (hL : s.hunkLines = []) :
    ((groupStep changes cl s idx).hunkLines =
      ((leadingRun changes idx cl).map fun ch : Change => " " ++ ch.text) ++
        [if c.type = .delete then "-" ++ c.text else "+" ++ c.text]) ∧
    (leadingRun changes idx cl).length = min cl (equalRunBefore changes idx) ∧
    ∀ start, (trailingRun changes start cl).length =
      min cl (countType .equal (changes.drop start)) := by
  refine ⟨?_, ?_, ?_⟩
  · unfold groupStep
    rw [hg]
    dsimp only
    rw [if_neg hc, groupEmit_hunkLines]
    rw [groupClose_of_hunkLines_nil changes cl s idx hL]
    unfold groupContext
    rw [if_pos hL]
  · simp [leadingRun, equalRunBefore, List.length_take]
  · intro start
    simp [trailingRun, countType, List.length_take]

/-- Witness for `hunk_context_bounds`: opening a hunk at index `1` behind
a single `equal` record takes that one record as leading context. -/
theorem hunk_context_bounds_witness :
    ((groupStep [⟨.equal, some 0, some 0, "e"⟩, ⟨.delete, some 1, none, "x"⟩] 3
        initGroupState 1).hunkLines =
      ((leadingRun [⟨.equal, some 0, some 0, "e"⟩, ⟨.delete, some 1, none, "x"⟩] 1 3).map
        fun ch : Change => " " ++ ch.text) ++ ["-x"]) ∧
    (leadingRun [⟨.equal, some 0, some 0, "e"⟩, ⟨.delete, some 1, none, "x"⟩] 1 3).length =
      min 3 (equalRunBefore [⟨.equal, some 0, some 0, "e"⟩, ⟨.delete, some 1, none, "x"⟩] 1) ∧
    ∀ start,
      (trailingRun [⟨.equal, some 0, some 0, "e"⟩, ⟨.delete, some 1, none, "x"⟩] start 3).length =
        min 3 (countType .equal
          ([⟨.equal, some 0, some 0, "e"⟩, ⟨.delete, some 1, none, "x"⟩].drop start)) := by
  have h := hunk_context_bounds
    [⟨.equal, some 0, some 0, "e"⟩, ⟨.delete, some 1, none, "x"⟩] 3 initGroupState 1
    ⟨.delete, some 1, none, "x"⟩ (by decide) (by decide) (by decide)
  exact ⟨h.1, h.2.1, h.2.2⟩

end BachCC
